import Mathlib

/-!
A verification development for rename_videos.py, a tool that scans a folder
for video files, probes duration and resolution, and renames files to embed
that metadata. The Python source is shallowly embedded below: paths are
structures of directory prefix, stem and extension; regular expressions are
embedded as executable matchers over character lists; the external ffprobe
subprocess and the filesystem are oracles passed as function arguments.
Python floats are modelled by rationals, and the regex class for a digit is
modelled by the ASCII digits (the inputs at hand are ASCII).
-/

/-- ASCII digit test, the model of the regex class for a digit. -/
def isDig (c : Char) : Bool := 48 ≤ c.toNat && c.toNat ≤ 57

/-- One decimal digit character. -/
def digitChar (n : ℕ) : Char := Char.ofNat (48 + n)

/-- Fuelled accumulator loop producing the decimal digits of a number,
the model of Python str on a nonnegative int. -/
def natDigitsAux : ℕ → ℕ → List Char → List Char
  | 0, _, acc => acc
  | _ + 1, 0, acc => acc
  | f + 1, n + 1, acc => natDigitsAux f ((n + 1) / 10) (digitChar ((n + 1) % 10) :: acc)

/-- Decimal representation of a natural number as characters. -/
def natDigits (n : ℕ) : List Char := if n = 0 then [digitChar 0] else natDigitsAux n n []

/-- Lexicographic comparison of strings by code point, the model of
Python string ordering. -/
def lexLe : List Char → List Char → Bool
  | [], _ => true
  | _ :: _, [] => false
  | a :: as_, b :: bs => if a.toNat < b.toNat then true
      else if b.toNat < a.toNat then false
      else lexLe as_ bs

/-- A filesystem path, the model of pathlib.Path: directory prefix,
stem and suffix (the suffix includes its leading dot). -/
structure PPath where
  dir : List Char
  stem : List Char
  ext : List Char
deriving DecidableEq

/-- The final path component, stem plus suffix. -/
def nameOf (p : PPath) : List Char := p.stem ++ p.ext

/-- The full textual form of a path, the model of str applied to a Path. -/
def strOf (p : PPath) : List Char := p.dir ++ p.stem ++ p.ext

/-- After a leading run of digits inside the Chinese duration marker
scan, look for the two marker characters and return the remainder. -/
def afterDigitsCh : List Char → Option (List Char)
  | [] => none
  | a :: r =>
    if isDig a then afterDigitsCh r
    else if a = '分' then
      match r with
      | b :: r2 => if b = '钟' then some r2 else none
      | [] => none
    else none

/-- Fuelled scan substituting every match of the regex CHINESE_DURATION_RE,
digits followed by the two marker characters, with the probed duration and
a min suffix, the model of CHINESE_DURATION_RE.sub on line 94. -/
def chSubF (d : ℕ) : ℕ → List Char → List Char
  | 0, s => s
  | _ + 1, [] => []
  | f + 1, c :: rest =>
    if isDig c then
      match afterDigitsCh rest with
      | some r2 => natDigits d ++ 'm' :: 'i' :: 'n' :: chSubF d f r2
      | none => c :: chSubF d f rest
    else c :: chSubF d f rest

/-- Substitution of the Chinese duration marker, at adequate fuel. -/
def chineseSub (d : ℕ) (s : List Char) : List Char := chSubF d s.length s

/-- Whether the string contains a match of CHINESE_DURATION_RE, helper:
does the list start with the two marker characters. -/
def startsChM : List Char → Bool
  | a :: b :: _ => a = '分' && b = '钟'
  | _ => false

/-- Whether the string contains a digit directly followed by the two
marker characters, i.e. a match of CHINESE_DURATION_RE. -/
def hasCh : List Char → Bool
  | [] => false
  | a :: rest => (isDig a && startsChM rest) || hasCh rest

/-- Parse, on a reversed stem, the reversed tail of the regex
TRAILING_RESOLUTION_RE: a trailing group of digits, an x, another group of
digits and an underscore; returns the reversed remainder and both digit
groups in original order. -/
def parseTrailRev (r : List Char) : Option (List Char × List Char × List Char) :=
  let hR := r.takeWhile isDig
  let r1 := r.dropWhile isDig
  if hR = [] then none else
  match r1 with
  | 'x' :: r2 =>
    let wR := r2.takeWhile isDig
    let r3 := r2.dropWhile isDig
    if wR = [] then none else
    match r3 with
    | '_' :: r4 => some (r4.reverse, wR.reverse, hR.reverse)
    | _ => none
  | _ => none

/-- Decomposition of a stem at its trailing resolution marker, the model
of a search and sub of TRAILING_RESOLUTION_RE on lines 96 and 97. -/
def splitTrailingRes (s : List Char) : Option (List Char × List Char × List Char) :=
  parseTrailRev s.reverse

/-- The new stem computed by build_new_path on lines 90 to 101: substitute
the Chinese duration marker, then replace a trailing resolution marker or
append a fresh one. -/
def buildStem (d w h : ℕ) (s : List Char) : List Char :=
  let s1 := chineseSub d s
  match splitTrailingRes s1 with
  | some (pre, _, _) => pre ++ '_' :: (natDigits w ++ 'x' :: natDigits h)
  | none => s1 ++ '_' :: (natDigits w ++ 'x' :: natDigits h)

/-- The model of build_new_path: Path.with_stem keeps directory and
suffix and installs the new stem. -/
def build_new_path (p : PPath) (d w h : ℕ) : PPath :=
  ⟨p.dir, buildStem d w h p.stem, p.ext⟩

/-- Consume a maximal nonempty run of digits, the building block of the
reversed matcher for ALREADY_TAGGED_RE. -/
def dropDigits1 (l : List Char) : Option (List Char) :=
  match l with
  | [] => none
  | c :: _ => if isDig c then some (l.dropWhile isDig) else none

/-- Matcher for the reverse of ALREADY_TAGGED_RE, the regex of line 16:
an underscore, digits, the letters min, an underscore, digits, an x and
digits, anchored at the end of the stem. -/
def matchTagRev (l : List Char) : Bool :=
  match dropDigits1 l with
  | some ('x' :: l2) =>
    (match dropDigits1 l2 with
     | some ('_' :: 'n' :: 'i' :: 'm' :: l4) =>
       (match dropDigits1 l4 with
        | some ('_' :: _) => true
        | _ => false)
     | _ => false)
  | _ => false

/-- The model of ALREADY_TAGGED_RE.search on a stem. -/
def ALREADY_TAGGED_RE (stem : List Char) : Bool := matchTagRev stem.reverse

/-- Strip leading and trailing whitespace, the model of str.strip. -/
def pyStrip (s : List Char) : List Char :=
  ((s.dropWhile (fun c => c.isWhitespace)).reverse.dropWhile (fun c => c.isWhitespace)).reverse

/-- Split each line of ffprobe output at its first equals sign, keeping
only lines that contain one, the model of lines 52 to 55. -/
def parseKV (lines : List (List Char)) : List (List Char × List Char) :=
  lines.filterMap (fun l =>
    if l.contains '=' then
      some (l.takeWhile (fun c => c ≠ '='), (l.dropWhile (fun c => c ≠ '=')).tail)
    else none)

/-- Dictionary lookup where a later assignment overwrites an earlier one,
the model of building the values dict and calling get. -/
def getValue (lines : List (List Char)) (key : List Char) : Option (List Char) :=
  (parseKV lines).foldl (fun acc kv => if kv.1 = key then some kv.2 else acc) none

/-- The key value lines of a probe stdout text: strip, then split on
newlines, the model of line 50. -/
def stdoutLines (out : List Char) : List (List Char) :=
  (pyStrip out).splitOn '\n'

/-- Numeric value of a digit string. -/
def digitsValN (l : List Char) : ℕ := l.foldl (fun acc c => acc * 10 + (c.toNat - 48)) 0

/-- The model of Python int applied to a string: optional surrounding
whitespace and sign, then a nonempty run of digits, otherwise a failure
(the ValueError of line 66). -/
def pyInt (s : List Char) : Option ℤ :=
  let t := pyStrip s
  let (sgn, t1) : ℤ × List Char :=
    match t with
    | '-' :: r => (-1, r)
    | '+' :: r => (1, r)
    | _ => (1, t)
  if t1 ≠ [] ∧ t1.all isDig then some (sgn * (digitsValN t1 : ℤ)) else none

/-- A floating point value modelled exactly: the decimal fraction
num over ten to the exp. Every literal ffprobe prints is of this form. -/
structure DecFrac where
  num : ℤ
  exp : ℕ
deriving DecidableEq

/-- The rational value of a decimal fraction. -/
def DecFrac.toRat (s : DecFrac) : ℚ := (s.num : ℚ) / (10 : ℚ) ^ s.exp

/-- The model of Python float applied to a string: optional surrounding
whitespace and sign, an integer part, an optional dot and fractional part
(exponent, infinity and nan forms do not occur in ffprobe duration output
and are not modelled); otherwise a failure. -/
def pyFloat (s : List Char) : Option DecFrac :=
  let t := pyStrip s
  let (sgn, t1) : ℤ × List Char :=
    match t with
    | '-' :: r => (-1, r)
    | '+' :: r => (1, r)
    | _ => (1, t)
  let ip := t1.takeWhile isDig
  let r1 := t1.dropWhile isDig
  match r1 with
  | [] => if ip = [] then none else some ⟨sgn * (digitsValN ip : ℤ), 0⟩
  | '.' :: fp1 =>
    let fp := fp1.takeWhile isDig
    let r2 := fp1.dropWhile isDig
    if r2 ≠ [] then none
    else if ip = [] ∧ fp = [] then none
    else some ⟨sgn * ((digitsValN ip : ℤ) * (10 : ℤ) ^ fp.length + (digitsValN fp : ℤ)),
              fp.length⟩
  | _ => none

/-- The model of Python round on a rational: nearest integer, ties to the
even neighbour. -/
def pyRound (q : ℚ) : ℤ :=
  let f := ⌊q⌋
  let r := q - f
  if r < 1 / 2 then f
  else if 1 / 2 < r then f + 1
  else if f % 2 = 0 then f else f + 1

/-- The rounding formula of line 64 on a rational number of seconds:
whole minutes, rounded, with a floor of one. -/
def durationMinQ (s : ℚ) : ℤ := max 1 (pyRound (s / 60))

/-- Whole minutes reported for a probed duration, the model of line 64,
computed in exact integer arithmetic on the decimal fraction: round
half to even of num over sixty times ten to the exp, with a floor of
one. -/
def durationMin (s : DecFrac) : ℤ :=
  let D : ℤ := 60 * (10 : ℤ) ^ s.exp
  let f := Int.fdiv s.num D
  let r2 := 2 * (s.num - f * D)
  max 1 (if r2 < D then f else if D < r2 then f + 1 else if f % 2 = 0 then f else f + 1)

/-- Outcome of the ffprobe subprocess call: a timeout or an os error
(the exceptions of line 66), or completion with an exit code and captured
stdout text. -/
inductive ProcResult where
  | timedOut
  | osError
  | completed (returncode : ℤ) (stdout : List Char)

/-- The parsed width of a probe output, line 57: a missing key defaults
to the integer zero, a present value goes through int and may fail. -/
def widthOpt (out : List Char) : Option ℤ :=
  match getValue (stdoutLines out) ("width".data) with
  | none => some 0
  | some v => pyInt v

/-- The parsed height of a probe output, line 58. -/
def heightOpt (out : List Char) : Option ℤ :=
  match getValue (stdoutLines out) ("height".data) with
  | none => some 0
  | some v => pyInt v

/-- The parsed duration of a probe output, line 59: a missing key
defaults to zero seconds, a present value goes through float and may
fail. -/
def durationOpt (out : List Char) : Option DecFrac :=
  match getValue (stdoutLines out) ("duration".data) with
  | none => some ⟨0, 0⟩
  | some v => pyFloat v

/-- The model of probe_video, lines 30 to 67: on completion parse the key
value output, take width, height and duration with a default of zero when
a key is absent, fail on any unparseable value or non-positive dimension,
and return minutes, width and height. -/
def probe_video : ProcResult → Option (ℤ × ℤ × ℤ)
  | ProcResult.timedOut => none
  | ProcResult.osError => none
  | ProcResult.completed rc out =>
    if rc ≠ 0 then none
    else
      match widthOpt out, heightOpt out, durationOpt out with
      | some w, some h, some sec =>
        if w ≤ 0 ∨ h ≤ 0 then none
        else some (durationMin sec, w, h)
      | _, _, _ => none

/-- A plan entry, the triple returned by probe_file: original path,
optional target path and status string. -/
structure PlanEntry where
  orig : PPath
  target : Option PPath
  status : String
deriving DecidableEq

/-- The model of probe_file, lines 139 to 155, with the probe and the
target-existence test of the filesystem passed as oracles. -/
def probe_file (probe : PPath → Option (ℕ × ℕ × ℕ)) (exOn : PPath → Bool)
    (p : PPath) : PlanEntry :=
  if ALREADY_TAGGED_RE p.stem then ⟨p, none, "SKIP (already tagged)"⟩
  else
    match probe p with
    | none => ⟨p, none, "SKIP (probe failed)"⟩
    | some (d, w, h) =>
      let np := build_new_path p d w h
      if np = p then ⟨p, none, "SKIP (already named)"⟩
      else if exOn np then ⟨p, some np, "SKIP (target exists)"⟩
      else ⟨p, some np, "RENAME"⟩

/-- Whether a file name matches the glob pattern star dot ext, i.e. ends
with a dot and the extension. -/
def matchesExt (e : List Char) (p : PPath) : Bool := ('.' :: e).isSuffixOf (nameOf p)

/-- Uppercased extension, the model of str.upper on an ASCII extension. -/
def upperL (e : List Char) : List Char := e.map Char.toUpper

/-- The files produced by the two rglob calls per extension, lines 72 to
77, with the directory tree given as the oracle list fs in enumeration
order. -/
def globFiles (fs : List PPath) (exts : List (List Char)) : List PPath :=
  exts.flatMap (fun e => fs.filter (matchesExt e) ++ fs.filter (matchesExt (upperL e)))

/-- Deduplication by resolved path keeping first occurrences, lines 79 to
85, with Path.resolve given as an oracle assigning a canonical key. -/
def dedupBy (resolve : PPath → ℕ) : List ℕ → List PPath → List PPath
  | _, [] => []
  | seen, f :: rest =>
    if resolve f ∈ seen then dedupBy resolve seen rest
    else f :: dedupBy resolve (resolve f :: seen) rest

/-- Path order by full textual form, the sort key of lines 86 and 160. -/
def pathLe (a b : PPath) : Prop := lexLe (strOf a) (strOf b) = true

instance : DecidableRel pathLe := fun _ _ => instDecidableEqBool _ _

/-- The model of collect_video_files, lines 70 to 87: glob both case
variants of every extension, deduplicate by resolved path, sort by path
string. -/
def collect_video_files (fs : List PPath) (resolve : PPath → ℕ)
    (exts : List (List Char)) : List PPath :=
  List.insertionSort pathLe (dedupBy resolve [] (globFiles fs exts))

/-- Plan order by the textual form of the original path, line 160. -/
def entryLe (a b : PlanEntry) : Prop := lexLe (strOf a.orig) (strOf b.orig) = true

instance : DecidableRel entryLe := fun _ _ => instDecidableEqBool _ _

/-- The displayed plan: probe results sorted by original path, line 160. -/
def planSort (results : List PlanEntry) : List PlanEntry :=
  List.insertionSort entryLe results

/-- The renames the apply loop would attempt: entries with status RENAME
and a present target, in plan order. -/
def attemptList (plan : List PlanEntry) : List (PPath × PPath) :=
  plan.filterMap (fun e =>
    if e.status = "RENAME" then e.target.map (fun t => (e.orig, t)) else none)

/-- The model of the apply loop, lines 180 to 193: entries not marked
RENAME or without target are skipped; each attempted os.rename succeeds or
fails according to the oracle ok, failures are counted and the loop
continues. Returns attempted renames in order, successes and failures. -/
def applyRenames (ok : PPath → PPath → Bool) : List PlanEntry → List (PPath × PPath) × ℕ × ℕ
  | [] => ([], 0, 0)
  | e :: rest =>
    let r := applyRenames ok rest
    if e.status = "RENAME" then
      match e.target with
      | some t =>
        ((e.orig, t) :: r.1,
         (if ok e.orig t then r.2.1 + 1 else r.2.1),
         (if ok e.orig t then r.2.2 else r.2.2 + 1))
      | none => r
    else r


/-! ### Digit and scanning helper lemmas -/

theorem isDig_ne_fen {c : Char} (h : isDig c = true) : c ≠ '分' := by
  intro he
  subst he
  simp [isDig] at h

theorem isDig_ne_zhong {c : Char} (h : isDig c = true) : c ≠ '钟' := by
  intro he
  subst he
  simp [isDig] at h

theorem digitChar_isDig {n : ℕ} (h : n < 10) : isDig (digitChar n) = true := by
  interval_cases n <;> decide

theorem natDigitsAux_spec (f : ℕ) : ∀ (n : ℕ) (acc : List Char),
    ∃ l, natDigitsAux f n acc = l ++ acc ∧ (∀ c ∈ l, isDig c = true) ∧
      (n ≠ 0 → f ≠ 0 → l ≠ []) := by
  induction f with
  | zero =>
    intro n acc
    exact ⟨[], rfl, by simp, by simp⟩
  | succ f ih =>
    intro n acc
    cases n with
    | zero => exact ⟨[], rfl, by simp, by simp⟩
    | succ m =>
      obtain ⟨l, hl, hdig, _⟩ := ih ((m + 1) / 10) (digitChar ((m + 1) % 10) :: acc)
      refine ⟨l ++ [digitChar ((m + 1) % 10)], ?_, ?_, ?_⟩
      · simpa [natDigitsAux, List.append_assoc] using hl
      · intro c hc
        rcases List.mem_append.1 hc with h1 | h1
        · exact hdig c h1
        · rcases List.mem_singleton.1 h1 with rfl
          exact digitChar_isDig (Nat.mod_lt _ (by omega))
      · simp

theorem natDigits_all_dig {n : ℕ} : ∀ c ∈ natDigits n, isDig c = true := by
  unfold natDigits
  by_cases h : n = 0
  · simp [h]
    decide
  · simp only [h, if_false]
    obtain ⟨l, hl, hdig, _⟩ := natDigitsAux_spec n n []
    rw [hl]
    simpa using hdig

theorem natDigits_ne_nil {n : ℕ} : natDigits n ≠ [] := by
  unfold natDigits
  by_cases h : n = 0
  · simp [h]
  · simp only [h, if_false]
    obtain ⟨l, hl, _, hne⟩ := natDigitsAux_spec n n []
    rw [hl]
    simpa using hne h h

theorem takeWhile_digits_append {p : Char → Bool} :
    ∀ (l : List Char) (a : Char) (t : List Char), (∀ x ∈ l, p x = true) → p a = false →
      (l ++ a :: t).takeWhile p = l ∧ (l ++ a :: t).dropWhile p = a :: t := by
  intro l
  induction l with
  | nil =>
    intro a t _ ha
    constructor
    · simp [List.takeWhile, ha]
    · simp [List.dropWhile, ha]
  | cons c rest ih =>
    intro a t hall ha
    have hc : p c = true := hall c (by simp)
    have hrest : ∀ x ∈ rest, p x = true := fun x hx => hall x (by simp [hx])
    obtain ⟨h1, h2⟩ := ih a t hrest ha
    constructor
    · simp [List.takeWhile, hc, h1]
    · simp [List.dropWhile, hc, h2]

theorem dropWhile_digits_nil {p : Char → Bool} :
    ∀ (l : List Char), (∀ x ∈ l, p x = true) → (l.takeWhile p = l ∧ l.dropWhile p = []) := by
  intro l
  induction l with
  | nil => simp
  | cons c rest ih =>
    intro hall
    have hc : p c = true := hall c (by simp)
    obtain ⟨h1, h2⟩ := ih fun x hx => hall x (by simp [hx])
    constructor
    · simp [List.takeWhile, hc, h1]
    · simp [List.dropWhile, hc, h2]

/-! ### Lemmas about the Chinese duration substitution -/

theorem startsChM_inv {l : List Char} (h : startsChM l = true) :
    ∃ v, l = '分' :: '钟' :: v := by
  rcases l with _ | ⟨a, _ | ⟨b, v⟩⟩
  · simp [startsChM] at h
  · simp [startsChM] at h
  · simp only [startsChM, Bool.and_eq_true, decide_eq_true_eq] at h
    exact ⟨v, by rw [h.1, h.2]⟩

theorem startsChM_false_of_head {l : List Char}
    (h : ∀ y, l.head? = some y → y ≠ '分') : startsChM l = false := by
  rcases l with _ | ⟨a, _ | ⟨b, v⟩⟩
  · rfl
  · rfl
  · have := h a rfl
    simp [startsChM, this]

theorem hasCh_cons (a : Char) (rest : List Char) :
    hasCh (a :: rest) = ((isDig a && startsChM rest) || hasCh rest) := rfl

theorem hasCh_cons_false {a : Char} {rest : List Char} (h : hasCh (a :: rest) = false) :
    (isDig a && startsChM rest) = false ∧ hasCh rest = false := by
  rw [hasCh_cons] at h
  exact ⟨(Bool.or_eq_false_iff.1 h).1, (Bool.or_eq_false_iff.1 h).2⟩

theorem hasCh_of_no_fen : ∀ {t : List Char}, '分' ∉ t → hasCh t = false := by
  intro t
  induction t with
  | nil => intro _; rfl
  | cons a rest ih =>
    intro h
    rw [hasCh_cons, Bool.or_eq_false_iff]
    refine ⟨?_, ih fun hm => h (by simp [hm])⟩
    have : startsChM rest = false := by
      apply startsChM_false_of_head
      intro y hy he
      subst he
      exact h (by simp [List.mem_of_mem_head? hy])
    simp [this]

theorem hasCh_append_left {l t : List Char} (h : hasCh (l ++ t) = false) :
    hasCh l = false := by
  induction l with
  | nil => rfl
  | cons a rest ih =>
    rw [List.cons_append] at h
    obtain ⟨h1, h2⟩ := hasCh_cons_false h
    rw [hasCh_cons, Bool.or_eq_false_iff]
    refine ⟨?_, ih h2⟩
    rcases hb : (isDig a && startsChM rest) with _ | _
    · rfl
    · exfalso
      rw [Bool.and_eq_true] at hb
      obtain ⟨v, hv⟩ := startsChM_inv hb.2
      subst hv
      simp [startsChM, hb.1] at h1

theorem hasCh_append_sfx : ∀ {P : List Char} {sfx : List Char},
    hasCh P = false → '分' ∉ sfx → '钟' ∉ sfx → hasCh (P ++ sfx) = false := by
  intro P
  induction P with
  | nil =>
    intro sfx _ hf _
    exact hasCh_of_no_fen hf
  | cons x P' ih =>
    intro sfx h hf hz
    obtain ⟨h1, h2⟩ := hasCh_cons_false h
    rw [List.cons_append, hasCh_cons, Bool.or_eq_false_iff]
    refine ⟨?_, ih h2 hf hz⟩
    rcases hb : (isDig x && startsChM (P' ++ sfx)) with _ | _
    · rfl
    · exfalso
      rw [Bool.and_eq_true] at hb
      obtain ⟨v, hv⟩ := startsChM_inv hb.2
      rcases P' with _ | ⟨c1, _ | ⟨c2, r⟩⟩
      · simp only [List.nil_append] at hv
        exact hf (by rw [hv]; simp)
      · simp only [List.cons_append, List.nil_append, List.cons.injEq] at hv
        exact hz (by rw [hv.2]; simp)
      · simp only [List.cons_append, List.cons.injEq] at hv
        simp [hb.1, startsChM, hv.1, hv.2.1] at h1

theorem isDig_fen : isDig '分' = false := by decide

theorem isDig_zhong : isDig '钟' = false := by decide

theorem afterDigitsCh_sound : ∀ {rest r2 : List Char}, afterDigitsCh rest = some r2 →
    ∃ ds, (∀ x ∈ ds, isDig x = true) ∧ rest = ds ++ '分' :: '钟' :: r2 := by
  intro rest
  induction rest with
  | nil => intro r2 h; simp [afterDigitsCh] at h
  | cons a r ih =>
    intro r2 h
    by_cases ha : isDig a = true
    · rw [show afterDigitsCh (a :: r) = afterDigitsCh r by simp [afterDigitsCh, ha]] at h
      obtain ⟨ds, hds, hr⟩ := ih h
      refine ⟨a :: ds, ?_, by rw [hr]; rfl⟩
      intro x hx
      rcases List.mem_cons.1 hx with rfl | hx
      · exact ha
      · exact hds x hx
    · by_cases hf : a = '分'
      · subst hf
        rcases r with _ | ⟨b, r'⟩
        · simp [afterDigitsCh] at h
        · by_cases hb : b = '钟'
          · subst hb
            rw [show afterDigitsCh ('分' :: '钟' :: r') = some r' from by
              simp [afterDigitsCh, isDig_fen]] at h
            obtain rfl : r' = r2 := Option.some.inj h
            exact ⟨[], by simp, rfl⟩
          · rw [show afterDigitsCh ('分' :: b :: r') = none from by
              simp [afterDigitsCh, isDig_fen, hb]] at h
            exact Option.noConfusion h
      · rw [show afterDigitsCh (a :: r) = none from by
          simp [afterDigitsCh, ha, hf]] at h
        exact Option.noConfusion h


theorem hasCh_digits_marker : ∀ (ds : List Char) (c : Char) (r2 : List Char),
    isDig c = true → (∀ x ∈ ds, isDig x = true) →
    hasCh (c :: (ds ++ '分' :: '钟' :: r2)) = true := by
  intro ds
  induction ds with
  | nil =>
    intro c r2 hc _
    rw [List.nil_append, hasCh_cons]
    simp [hc, startsChM]
  | cons e ds' ih =>
    intro c r2 hc hall
    rw [List.cons_append, hasCh_cons]
    have := ih e r2 (hall e (by simp)) (fun x hx => hall x (by simp [hx]))
    simp [this]

theorem chSubF_id (d : ℕ) : ∀ (f : ℕ) (s : List Char), s.length ≤ f →
    hasCh s = false → chSubF d f s = s := by
  intro f
  induction f with
  | zero => intro s _ _; rfl
  | succ f ih =>
    intro s hlen hch
    rcases s with _ | ⟨c, rest⟩
    · rfl
    · obtain ⟨h1, h2⟩ := hasCh_cons_false hch
      have hrl : rest.length ≤ f := by simpa using hlen
      by_cases hc : isDig c = true
      · rcases h3 : afterDigitsCh rest with _ | r2
        · rw [show chSubF d (f + 1) (c :: rest) = c :: chSubF d f rest from by
            simp [chSubF, hc, h3]]
          rw [ih rest hrl h2]
        · exfalso
          obtain ⟨ds, hds, hr⟩ := afterDigitsCh_sound h3
          have := hasCh_digits_marker ds c r2 hc hds
          rw [← hr] at this
          rw [hch] at this
          exact Bool.noConfusion this
      · rw [show chSubF d (f + 1) (c :: rest) = c :: chSubF d f rest from by
          simp [chSubF, hc]]
        rw [ih rest hrl h2]

theorem chSubF_head (d : ℕ) (f : ℕ) (s : List Char) {z : Char}
    (h : (chSubF d f s).head? = some z) : s.head? = some z ∨ isDig z = true := by
  rcases f with _ | f
  · exact Or.inl h
  · rcases s with _ | ⟨c, rest⟩
    · exact Or.inl h
    · by_cases hc : isDig c = true
      · rcases h3 : afterDigitsCh rest with _ | r2
        · rw [show chSubF d (f + 1) (c :: rest) = c :: chSubF d f rest from by
            simp [chSubF, hc, h3]] at h
          exact Or.inl h
        · rw [show chSubF d (f + 1) (c :: rest)
              = natDigits d ++ 'm' :: 'i' :: 'n' :: chSubF d f r2 from by
            simp [chSubF, hc, h3]] at h
          rcases hnd : natDigits d with _ | ⟨dd, tl⟩
          · exact absurd hnd natDigits_ne_nil
          · rw [hnd, List.cons_append, List.head?_cons] at h
            obtain rfl : dd = z := Option.some.inj h
            exact Or.inr (natDigits_all_dig dd (by rw [hnd]; simp))
      · rw [show chSubF d (f + 1) (c :: rest) = c :: chSubF d f rest from by
          simp [chSubF, hc]] at h
        exact Or.inl h

theorem hasCh_digits_min_append : ∀ (D : List Char) (T : List Char),
    (∀ x ∈ D, isDig x = true) → hasCh T = false →
    hasCh (D ++ 'm' :: 'i' :: 'n' :: T) = false := by
  intro D
  induction D with
  | nil =>
    intro T _ hT
    simp only [List.nil_append]
    rw [hasCh_cons, hasCh_cons, hasCh_cons]
    have h1 : isDig 'm' = false := by decide
    have h2 : isDig 'i' = false := by decide
    have h3 : isDig 'n' = false := by decide
    simp [h1, h2, h3, hT]
  | cons y D' ih =>
    intro T hall hT
    rw [List.cons_append, hasCh_cons]
    have hrec := ih T (fun x hx => hall x (by simp [hx])) hT
    have hs : startsChM (D' ++ 'm' :: 'i' :: 'n' :: T) = false := by
      apply startsChM_false_of_head
      intro u hu he
      subst he
      rcases D' with _ | ⟨v, D''⟩
      · simp at hu
      · simp only [List.cons_append, List.head?_cons] at hu
        obtain rfl : v = '分' := Option.some.inj hu
        have := hall '分' (by simp)
        rw [isDig_fen] at this
        exact Bool.noConfusion this
    simp [hs, hrec]

theorem chSubF_nil (d f : ℕ) : chSubF d f [] = [] := by
  cases f <;> rfl

theorem startsChM_chSubF_of_none (d : ℕ) (f : ℕ) (rest : List Char)
    (hn : afterDigitsCh rest = none) : startsChM (chSubF d f rest) = false := by
  rcases f with _ | g
  · rcases rest with _ | ⟨e, r'⟩
    · rfl
    · rcases r' with _ | ⟨b, r2⟩
      · rfl
      · by_cases he : e = '分'
        · subst he
          by_cases hb : b = '钟'
          · subst hb
            rw [show afterDigitsCh ('分' :: '钟' :: r2) = some r2 from by
              simp [afterDigitsCh, isDig_fen]] at hn
            exact Option.noConfusion hn
          · simp [chSubF, startsChM, hb]
        · simp [chSubF, startsChM, he]
  · rcases rest with _ | ⟨e, r'⟩
    · rfl
    · by_cases he : isDig e = true
      · rcases h4 : afterDigitsCh r' with _ | r2
        · rw [show chSubF d (g + 1) (e :: r') = e :: chSubF d g r' from by
            simp [chSubF, he, h4]]
          apply startsChM_false_of_head
          intro u hu hufen
          subst hufen
          rw [List.head?_cons] at hu
          have : e = '分' := Option.some.inj hu
          rw [this, isDig_fen] at he
          exact Bool.noConfusion he
        · rw [show chSubF d (g + 1) (e :: r')
              = natDigits d ++ 'm' :: 'i' :: 'n' :: chSubF d g r2 from by
            simp [chSubF, he, h4]]
          apply startsChM_false_of_head
          intro u hu hufen
          subst hufen
          rcases hnd : natDigits d with _ | ⟨dd, tl⟩
          · exact absurd hnd natDigits_ne_nil
          · rw [hnd, List.cons_append, List.head?_cons] at hu
            have : dd = '分' := Option.some.inj hu
            have hdd := natDigits_all_dig dd (by rw [hnd]; simp)
            rw [this, isDig_fen] at hdd
            exact Bool.noConfusion hdd
      · by_cases hf : e = '分'
        · subst hf
          rcases r' with _ | ⟨b, r2⟩
          · rw [show chSubF d (g + 1) ['分'] = '分' :: chSubF d g [] from by
              simp [chSubF, isDig_fen]]
            rw [chSubF_nil]
            rfl
          · by_cases hb : b = '钟'
            · subst hb
              rw [show afterDigitsCh ('分' :: '钟' :: r2) = some r2 from by
                simp [afterDigitsCh, isDig_fen]] at hn
              exact Option.noConfusion hn
            · rw [show chSubF d (g + 1) ('分' :: b :: r2) = '分' :: chSubF d g (b :: r2) from by
                simp [chSubF, isDig_fen]]
              rcases hT : chSubF d g (b :: r2) with _ | ⟨u, w⟩
              · rfl
              · have hu : (chSubF d g (b :: r2)).head? = some u := by rw [hT]; rfl
                rcases chSubF_head d g (b :: r2) hu with hh | hh
                · rw [List.head?_cons] at hh
                  have : b = u := Option.some.inj hh
                  subst this
                  simp [startsChM, hb]
                · have hbz : u ≠ '钟' := by
                    intro hz
                    rw [hz, isDig_zhong] at hh
                    exact Bool.noConfusion hh
                  simp [startsChM, hbz]
        · rw [show chSubF d (g + 1) (e :: r') = e :: chSubF d g r' from by
            simp [chSubF, he]]
          apply startsChM_false_of_head
          intro u hu hufen
          subst hufen
          rw [List.head?_cons] at hu
          exact hf (Option.some.inj hu)

theorem chSubF_clean (d : ℕ) : ∀ (f : ℕ) (s : List Char), s.length ≤ f →
    hasCh (chSubF d f s) = false := by
  intro f
  induction f with
  | zero =>
    intro s hlen
    have : s = [] := List.length_eq_zero.1 (Nat.le_zero.1 hlen)
    subst this
    rfl
  | succ f ih =>
    intro s hlen
    rcases s with _ | ⟨c, rest⟩
    · rfl
    · have hrl : rest.length ≤ f := by simpa using hlen
      by_cases hc : isDig c = true
      · rcases h3 : afterDigitsCh rest with _ | r2
        · rw [show chSubF d (f + 1) (c :: rest) = c :: chSubF d f rest from by
            simp [chSubF, hc, h3]]
          rw [hasCh_cons]
          simp [startsChM_chSubF_of_none d f rest h3, ih rest hrl]
        · obtain ⟨ds, hds, hr⟩ := afterDigitsCh_sound h3
          have hlr2 : r2.length ≤ f := by
            have := congrArg List.length hr
            simp at this
            omega
          rw [show chSubF d (f + 1) (c :: rest)
              = natDigits d ++ 'm' :: 'i' :: 'n' :: chSubF d f r2 from by
            simp [chSubF, hc, h3]]
          exact hasCh_digits_min_append (natDigits d) _ (fun x hx => natDigits_all_dig x hx)
            (ih r2 hlr2)
      · rw [show chSubF d (f + 1) (c :: rest) = c :: chSubF d f rest from by
          simp [chSubF, hc]]
        rw [hasCh_cons]
        simp [hc, ih rest hrl]

/-! ### Lemmas about the trailing resolution marker -/

theorem splitTrailingRes_sound {s pre wd hd : List Char}
    (h : splitTrailingRes s = some (pre, wd, hd)) :
    s = pre ++ '_' :: (wd ++ 'x' :: hd) ∧ wd ≠ [] ∧ hd ≠ [] ∧
      (∀ x ∈ wd, isDig x = true) ∧ (∀ x ∈ hd, isDig x = true) := by
  unfold splitTrailingRes parseTrailRev at h
  simp only [] at h
  split at h
  · exact Option.noConfusion h
  · rename_i hRne
    split at h
    · rename_i r2 hr1
      split at h
      · exact Option.noConfusion h
      · rename_i wRne
        split at h
        · rename_i r4 hr3
          simp only [Option.some.injEq, Prod.mk.injEq] at h
          obtain ⟨hpre, hwd, hhd⟩ := h
          obtain ⟨A, hA⟩ : ∃ A, List.takeWhile isDig s.reverse = A := ⟨_, rfl⟩
          obtain ⟨W, hW⟩ : ∃ W, List.takeWhile isDig r2 = W := ⟨_, rfl⟩
          rw [hA] at hRne hhd
          rw [hW] at wRne hwd
          have hsrev : s.reverse = A ++ 'x' :: (W ++ '_' :: r4) := by
            conv_lhs => rw [← List.takeWhile_append_dropWhile (p := isDig) (l := s.reverse)]
            rw [hA, hr1]
            congr 1
            rw [show W ++ '_' :: r4 = List.takeWhile isDig r2 ++ List.dropWhile isDig r2
              from by rw [hr3, hW]]
            rw [List.takeWhile_append_dropWhile]
          have hs : s = (A ++ 'x' :: (W ++ '_' :: r4)).reverse := by
            have h2 := congrArg List.reverse hsrev
            rwa [List.reverse_reverse] at h2
          refine ⟨?_, ?_, ?_, ?_, ?_⟩
          · rw [hs, ← hpre, ← hwd, ← hhd]
            simp [List.reverse_append]
          · rw [← hwd]
            simp only [ne_eq, List.reverse_eq_nil_iff]
            exact wRne
          · rw [← hhd]
            simp only [ne_eq, List.reverse_eq_nil_iff]
            exact hRne
          · intro x hx
            rw [← hwd] at hx
            rw [← hW] at hx
            exact List.mem_takeWhile_imp (List.mem_reverse.1 hx)
          · intro x hx
            rw [← hhd] at hx
            rw [← hA] at hx
            exact List.mem_takeWhile_imp (List.mem_reverse.1 hx)
        · exact Option.noConfusion h
    · exact Option.noConfusion h

theorem splitTrailingRes_complete (P nw nh : List Char)
    (hwd : ∀ x ∈ nw, isDig x = true) (hhd : ∀ x ∈ nh, isDig x = true)
    (hwne : nw ≠ []) (hhne : nh ≠ []) :
    splitTrailingRes (P ++ '_' :: (nw ++ 'x' :: nh)) = some (P, nw, nh) := by
  have hrev : (P ++ '_' :: (nw ++ 'x' :: nh)).reverse
      = nh.reverse ++ 'x' :: (nw.reverse ++ '_' :: P.reverse) := by
    simp [List.reverse_append]
  have h1 := takeWhile_digits_append nh.reverse 'x' (nw.reverse ++ '_' :: P.reverse)
    (fun x hx => hhd x (List.mem_reverse.1 hx)) (by decide)
  have h2 := takeWhile_digits_append nw.reverse '_' P.reverse
    (fun x hx => hwd x (List.mem_reverse.1 hx)) (by decide)
  unfold splitTrailingRes parseTrailRev
  rw [hrev]
  simp only [h1.1, h1.2, h2.1, h2.2]
  rw [if_neg (by simpa using hhne)]
  rw [if_neg (by simpa using hwne)]
  simp

/-! ### Idempotence of the stem builder -/

theorem marker_not_mem_sfx (w h : ℕ) (c : Char) (hdig : isDig c = false)
    (h1 : c ≠ '_') (h2 : c ≠ 'x') :
    c ∉ ('_' :: (natDigits w ++ 'x' :: natDigits h)) := by
  intro hm
  rcases List.mem_cons.1 hm with he | hm
  · exact h1 he
  · rcases List.mem_append.1 hm with hm | hm
    · rw [natDigits_all_dig c hm] at hdig
      exact Bool.noConfusion hdig
    · rcases List.mem_cons.1 hm with he | hm
      · exact h2 he
      · rw [natDigits_all_dig c hm] at hdig
        exact Bool.noConfusion hdig

theorem chineseSub_id_of_clean {d : ℕ} {s : List Char} (h : hasCh s = false) :
    chineseSub d s = s :=
  chSubF_id d s.length s le_rfl h

theorem buildStem_clean (d w h : ℕ) (s : List Char) :
    hasCh (buildStem d w h s) = false := by
  have hclean : hasCh (chineseSub d s) = false := chSubF_clean d s.length s le_rfl
  have hfen : '分' ∉ ('_' :: (natDigits w ++ 'x' :: natDigits h)) :=
    marker_not_mem_sfx w h '分' isDig_fen (by decide) (by decide)
  have hzhong : '钟' ∉ ('_' :: (natDigits w ++ 'x' :: natDigits h)) :=
    marker_not_mem_sfx w h '钟' isDig_zhong (by decide) (by decide)
  unfold buildStem
  simp only []
  rcases hsplit : splitTrailingRes (chineseSub d s) with _ | ⟨pre, wd, hd⟩
  · exact hasCh_append_sfx hclean hfen hzhong
  · obtain ⟨hdecomp, _, _, _, _⟩ := splitTrailingRes_sound hsplit
    have hpre : hasCh pre = false := by
      rw [hdecomp] at hclean
      exact hasCh_append_left hclean
    exact hasCh_append_sfx hpre hfen hzhong

theorem buildStem_ends (d w h : ℕ) (s : List Char) :
    ∃ P, buildStem d w h s = P ++ '_' :: (natDigits w ++ 'x' :: natDigits h) ∧
      hasCh P = false := by
  have hclean : hasCh (chineseSub d s) = false := chSubF_clean d s.length s le_rfl
  unfold buildStem
  simp only []
  rcases hsplit : splitTrailingRes (chineseSub d s) with _ | ⟨pre, wd, hd⟩
  · exact ⟨chineseSub d s, rfl, hclean⟩
  · obtain ⟨hdecomp, _, _, _, _⟩ := splitTrailingRes_sound hsplit
    refine ⟨pre, rfl, ?_⟩
    rw [hdecomp] at hclean
    exact hasCh_append_left hclean

theorem buildStem_idem (d w h : ℕ) (s : List Char) :
    buildStem d w h (buildStem d w h s) = buildStem d w h s := by
  obtain ⟨P, hP, hPclean⟩ := buildStem_ends d w h s
  have hS : hasCh (buildStem d w h s) = false := buildStem_clean d w h s
  rw [hP] at hS ⊢
  unfold buildStem
  simp only []
  rw [chineseSub_id_of_clean hS]
  rw [splitTrailingRes_complete P (natDigits w) (natDigits h)
    (fun x hx => natDigits_all_dig x hx) (fun x hx => natDigits_all_dig x hx)
    natDigits_ne_nil natDigits_ne_nil]

theorem build_new_path_idem (p : PPath) (d w h : ℕ) :
    build_new_path (build_new_path p d w h) d w h = build_new_path p d w h := by
  unfold build_new_path
  simp [buildStem_idem]

/-! ### The already-tagged matcher accepts every tagged stem -/

theorem dropDigits1_append (D : List Char) (a : Char) (t : List Char)
    (hne : D ≠ []) (hdig : ∀ x ∈ D, isDig x = true) (ha : isDig a = false) :
    dropDigits1 (D ++ a :: t) = some (a :: t) := by
  rcases D with _ | ⟨e, D'⟩
  · exact absurd rfl hne
  · have he : isDig e = true := hdig e (by simp)
    rw [List.cons_append]
    show (if isDig e = true then some (List.dropWhile isDig (e :: (D' ++ a :: t)))
        else none) = some (a :: t)
    rw [if_pos he, ← List.cons_append]
    rw [(takeWhile_digits_append (e :: D') a t hdig ha).2]

theorem already_tagged_of_decomp (pre a b c : List Char)
    (hane : a ≠ []) (hbne : b ≠ []) (hcne : c ≠ [])
    (hda : ∀ x ∈ a, isDig x = true) (hdb : ∀ x ∈ b, isDig x = true)
    (hdc : ∀ x ∈ c, isDig x = true) :
    ALREADY_TAGGED_RE
      (pre ++ ('_' :: a) ++ ('m' :: 'i' :: 'n' :: '_' :: b) ++ ('x' :: c)) = true := by
  unfold ALREADY_TAGGED_RE
  have hrev : (pre ++ ('_' :: a) ++ ('m' :: 'i' :: 'n' :: '_' :: b) ++ ('x' :: c)).reverse
      = c.reverse ++ 'x' :: (b.reverse ++ '_' :: 'n' :: 'i' :: 'm' ::
          (a.reverse ++ '_' :: pre.reverse)) := by
    simp [List.reverse_append]
  rw [hrev]
  unfold matchTagRev
  rw [dropDigits1_append c.reverse 'x' _
    (by simpa using hcne) (fun x hx => hdc x (List.mem_reverse.1 hx)) (by decide)]
  simp only []
  rw [dropDigits1_append b.reverse '_' _
    (by simpa using hbne) (fun x hx => hdb x (List.mem_reverse.1 hx)) (by decide)]
  simp only []
  rw [dropDigits1_append a.reverse '_' _
    (by simpa using hane) (fun x hx => hda x (List.mem_reverse.1 hx)) (by decide)]
  rfl

/-! ### The path order is total and transitive -/

theorem lexLe_total : ∀ (x y : List Char), lexLe x y = true ∨ lexLe y x = true := by
  intro x
  induction x with
  | nil => intro y; exact Or.inl rfl
  | cons a as_ ih =>
    intro y
    rcases y with _ | ⟨b, bs⟩
    · exact Or.inr rfl
    · by_cases h1 : a.toNat < b.toNat
      · exact Or.inl (by simp [lexLe, h1])
      · by_cases h2 : b.toNat < a.toNat
        · exact Or.inr (by simp [lexLe, h2])
        · rcases ih bs with h | h
          · exact Or.inl (by simp [lexLe, h1, h2, h])
          · exact Or.inr (by simp [lexLe, h1, h2, h])

theorem lexLe_trans : ∀ (x y z : List Char), lexLe x y = true → lexLe y z = true →
    lexLe x z = true := by
  intro x
  induction x with
  | nil => intro y z _ _; rfl
  | cons a as_ ih =>
    intro y z hxy hyz
    rcases y with _ | ⟨b, bs⟩
    · simp [lexLe] at hxy
    · rcases z with _ | ⟨c, cs⟩
      · simp [lexLe] at hyz
      · by_cases h1 : a.toNat < b.toNat
        · by_cases h2 : b.toNat < c.toNat
          · simp [lexLe, show a.toNat < c.toNat by omega]
          · by_cases h3 : c.toNat < b.toNat
            · simp [lexLe, h2, h3] at hyz
            · have : b.toNat = c.toNat := by omega
              simp [lexLe, show a.toNat < c.toNat by omega]
        · by_cases h4 : b.toNat < a.toNat
          · simp [lexLe, h1, h4] at hxy
          · have hab : a.toNat = b.toNat := by omega
            by_cases h2 : b.toNat < c.toNat
            · simp [lexLe, show a.toNat < c.toNat by omega]
            · by_cases h3 : c.toNat < b.toNat
              · simp [lexLe, h2, h3] at hyz
              · have hbc : b.toNat = c.toNat := by omega
                simp only [lexLe, h1, h4, if_false] at hxy
                simp only [lexLe, h2, h3, if_false] at hyz
                simp [lexLe, show ¬a.toNat < c.toNat by omega,
                  show ¬c.toNat < a.toNat by omega, ih bs cs hxy hyz]

/-! ### The integer duration computation equals the rational rounding formula -/

theorem durationMin_eq (s : DecFrac) : durationMin s = durationMinQ s.toRat := by
  unfold durationMin durationMinQ pyRound DecFrac.toRat
  simp only []
  have hD : (0:ℤ) < 60 * 10 ^ s.exp := by positivity
  have hq : (s.num : ℚ) / (10:ℚ) ^ s.exp / 60 = (s.num : ℚ) / ((60 * 10 ^ s.exp : ℤ) : ℚ) := by
    rw [div_div]
    push_cast
    ring_nf
  rw [hq]
  have hfl : ⌊(s.num : ℚ) / ((60 * 10 ^ s.exp : ℤ) : ℚ)⌋ = Int.fdiv s.num (60 * 10 ^ s.exp) := by
    have hnat : (60 * 10 ^ s.exp : ℤ) = ((60 * 10 ^ s.exp : ℕ) : ℤ) := by push_cast; ring
    rw [hnat]
    rw [show (((60 * 10 ^ s.exp : ℕ) : ℤ) : ℚ) = ((60 * 10 ^ s.exp : ℕ) : ℚ) by push_cast; ring]
    rw [Rat.floor_intCast_div_natCast]
    rw [Int.fdiv_eq_ediv _ (by positivity)]
  rw [hfl]
  have hDQ : (0:ℚ) < ((60 * 10 ^ s.exp : ℤ) : ℚ) := by exact_mod_cast hD
  have hrw : (s.num : ℚ) / ((60 * 10 ^ s.exp : ℤ) : ℚ)
      - (Int.fdiv s.num (60 * 10 ^ s.exp) : ℚ)
      = ((s.num - Int.fdiv s.num (60 * 10 ^ s.exp) * (60 * 10 ^ s.exp) : ℤ) : ℚ)
        / ((60 * 10 ^ s.exp : ℤ) : ℚ) := by
    field_simp
    ring
  have hlt1 : (2 * (s.num - Int.fdiv s.num (60 * 10 ^ s.exp) * (60 * 10 ^ s.exp)) < 60 * 10 ^ s.exp)
      ↔ ((s.num : ℚ) / ((60 * 10 ^ s.exp : ℤ) : ℚ)
          - (Int.fdiv s.num (60 * 10 ^ s.exp) : ℚ) < 1 / 2) := by
    rw [hrw, div_lt_div_iff₀ hDQ (by norm_num : (0:ℚ) < 2)]
    constructor
    · intro hx
      have : ((2 * (s.num - Int.fdiv s.num (60 * 10 ^ s.exp) * (60 * 10 ^ s.exp)) : ℤ) : ℚ)
          < ((60 * 10 ^ s.exp : ℤ) : ℚ) := by exact_mod_cast hx
      push_cast at this ⊢
      linarith
    · intro hx
      have h2 : ((2 * (s.num - Int.fdiv s.num (60 * 10 ^ s.exp) * (60 * 10 ^ s.exp)) : ℤ) : ℚ)
          < ((60 * 10 ^ s.exp : ℤ) : ℚ) := by push_cast at hx ⊢; linarith
      exact_mod_cast h2
  have hlt2 : (60 * 10 ^ s.exp < 2 * (s.num - Int.fdiv s.num (60 * 10 ^ s.exp) * (60 * 10 ^ s.exp)))
      ↔ (1 / 2 < (s.num : ℚ) / ((60 * 10 ^ s.exp : ℤ) : ℚ)
          - (Int.fdiv s.num (60 * 10 ^ s.exp) : ℚ)) := by
    rw [hrw, div_lt_div_iff₀ (by norm_num : (0:ℚ) < 2) hDQ]
    constructor
    · intro hx
      have : ((60 * 10 ^ s.exp : ℤ) : ℚ)
          < ((2 * (s.num - Int.fdiv s.num (60 * 10 ^ s.exp) * (60 * 10 ^ s.exp)) : ℤ) : ℚ) := by
        exact_mod_cast hx
      push_cast at this ⊢
      linarith
    · intro hx
      have h2 : ((60 * 10 ^ s.exp : ℤ) : ℚ)
          < ((2 * (s.num - Int.fdiv s.num (60 * 10 ^ s.exp) * (60 * 10 ^ s.exp)) : ℤ) : ℚ) := by
        push_cast at hx ⊢; linarith
      exact_mod_cast h2
  by_cases h1 : 2 * (s.num - Int.fdiv s.num (60 * 10 ^ s.exp) * (60 * 10 ^ s.exp)) < 60 * 10 ^ s.exp
  · rw [if_pos h1, if_pos (hlt1.1 h1)]
  · rw [if_neg h1, if_neg (fun hx => h1 (hlt1.2 hx))]
    by_cases h2 : 60 * 10 ^ s.exp
        < 2 * (s.num - Int.fdiv s.num (60 * 10 ^ s.exp) * (60 * 10 ^ s.exp))
    · rw [if_pos h2, if_pos (hlt2.1 h2)]
    · rw [if_neg h2, if_neg (fun hx => h2 (hlt2.2 hx))]

theorem pyRound_le_one_of_floor_nonpos {q : ℚ} (h : ⌊q⌋ ≤ 0) : pyRound q ≤ 1 := by
  unfold pyRound
  simp only []
  split
  · omega
  · split
    · omega
    · split <;> omega

theorem durationMinQ_eq_one_of_floor_nonpos {s : ℚ} (h : ⌊s / 60⌋ ≤ 0) : durationMinQ s = 1 := by
  unfold durationMinQ
  exact max_eq_left (pyRound_le_one_of_floor_nonpos h)

theorem durationMinQ_nonpos {s : ℚ} (h : s ≤ 0) : durationMinQ s = 1 := by
  apply durationMinQ_eq_one_of_floor_nonpos
  exact Int.floor_nonpos (div_nonpos_iff.2 (Or.inr ⟨h, by norm_num⟩))

theorem durationMinQ_subminute {s : ℚ} (_h0 : 0 < s) (h60 : s < 60) : durationMinQ s = 1 := by
  apply durationMinQ_eq_one_of_floor_nonpos
  have hone : s / 60 < 1 := (div_lt_one (by norm_num : (0:ℚ) < 60)).2 h60
  have hfl : ⌊s / 60⌋ < 1 := Int.floor_lt.2 (by exact_mod_cast hone)
  omega

theorem durationMinQ_89 : durationMinQ 89 = 1 := by
  unfold durationMinQ pyRound
  simp only []
  have hfl : ⌊(89 : ℚ) / 60⌋ = 1 := by
    rw [Int.floor_eq_iff]
    constructor
    · norm_num
    · norm_num
  rw [hfl]
  rw [if_pos (by push_cast; norm_num)]
  simp

/-! ### Collection: deduplication and sorting -/

instance : IsTotal PPath pathLe := ⟨fun a b => lexLe_total (strOf a) (strOf b)⟩

instance : IsTrans PPath pathLe :=
  ⟨fun a b c => lexLe_trans (strOf a) (strOf b) (strOf c)⟩

instance : IsTotal PlanEntry entryLe := ⟨fun a b => lexLe_total (strOf a.orig) (strOf b.orig)⟩

instance : IsTrans PlanEntry entryLe :=
  ⟨fun a b c => lexLe_trans (strOf a.orig) (strOf b.orig) (strOf c.orig)⟩

theorem dedupBy_spec (resolve : PPath → ℕ) : ∀ (l : List PPath) (seen : List ℕ),
    (dedupBy resolve seen l).Pairwise (fun a b => resolve a ≠ resolve b) ∧
      (∀ q ∈ dedupBy resolve seen l, resolve q ∉ seen) := by
  intro l
  induction l with
  | nil => intro seen; exact ⟨List.Pairwise.nil, by simp [dedupBy]⟩
  | cons f rest ih =>
    intro seen
    by_cases hm : resolve f ∈ seen
    · rw [show dedupBy resolve seen (f :: rest) = dedupBy resolve seen rest from by
        simp [dedupBy, hm]]
      exact ih seen
    · rw [show dedupBy resolve seen (f :: rest)
          = f :: dedupBy resolve (resolve f :: seen) rest from by simp [dedupBy, hm]]
      obtain ⟨hp, hs⟩ := ih (resolve f :: seen)
      refine ⟨List.Pairwise.cons ?_ hp, ?_⟩
      · intro q hq heq
        exact hs q hq (by rw [← heq]; simp)
      · intro q hq
        rcases List.mem_cons.1 hq with rfl | hq
        · exact hm
        · intro hin
          exact hs q hq (by simp [hin])

theorem dedupBy_mem (resolve : PPath → ℕ) : ∀ (l : List PPath) (seen : List ℕ) (p : PPath),
    p ∈ l → (∃ q ∈ dedupBy resolve seen l, resolve q = resolve p) ∨ resolve p ∈ seen := by
  intro l
  induction l with
  | nil => intro seen p hp; simp at hp
  | cons f rest ih =>
    intro seen p hp
    by_cases hm : resolve f ∈ seen
    · rw [show dedupBy resolve seen (f :: rest) = dedupBy resolve seen rest from by
        simp [dedupBy, hm]]
      rcases List.mem_cons.1 hp with rfl | hp
      · exact Or.inr hm
      · exact ih seen p hp
    · rw [show dedupBy resolve seen (f :: rest)
          = f :: dedupBy resolve (resolve f :: seen) rest from by simp [dedupBy, hm]]
      rcases List.mem_cons.1 hp with rfl | hp
      · exact Or.inl ⟨p, by simp, rfl⟩
      · rcases ih (resolve f :: seen) p hp with ⟨q, hq, he⟩ | hin
        · exact Or.inl ⟨q, by simp [hq], he⟩
        · rcases List.mem_cons.1 hin with he | hin
          · exact Or.inl ⟨f, by simp, he.symm⟩
          · exact Or.inr hin

theorem collect_mem (fs : List PPath) (resolve : PPath → ℕ) (exts : List (List Char))
    (p : PPath) (e : List Char) (hfs : p ∈ fs) (he : e ∈ exts)
    (hmatch : matchesExt e p = true ∨ matchesExt (upperL e) p = true) :
    ∃ q ∈ collect_video_files fs resolve exts, resolve q = resolve p := by
  have hg : p ∈ globFiles fs exts := by
    unfold globFiles
    rw [List.mem_flatMap]
    refine ⟨e, he, ?_⟩
    rw [List.mem_append]
    rcases hmatch with hm | hm
    · exact Or.inl (List.mem_filter.2 ⟨hfs, hm⟩)
    · exact Or.inr (List.mem_filter.2 ⟨hfs, hm⟩)
  rcases dedupBy_mem resolve (globFiles fs exts) [] p hg with ⟨q, hq, he2⟩ | hin
  · refine ⟨q, ?_, he2⟩
    unfold collect_video_files
    rw [List.mem_insertionSort]
    exact hq
  · simp at hin

theorem collect_pairwise (fs : List PPath) (resolve : PPath → ℕ) (exts : List (List Char)) :
    (collect_video_files fs resolve exts).Pairwise (fun a b => resolve a ≠ resolve b) := by
  unfold collect_video_files
  have hp := (dedupBy_spec resolve (globFiles fs exts) []).1
  have hperm := List.perm_insertionSort pathLe (dedupBy resolve [] (globFiles fs exts))
  exact hp.perm hperm.symm (fun hab heq => hab heq.symm)

theorem collect_sorted (fs : List PPath) (resolve : PPath → ℕ) (exts : List (List Char)) :
    List.Sorted pathLe (collect_video_files fs resolve exts) :=
  List.sorted_insertionSort pathLe _

theorem planSort_sorted (results : List PlanEntry) :
    List.Sorted entryLe (planSort results) :=
  List.sorted_insertionSort entryLe _

/-! ### The apply loop -/

theorem applyRenames_spec (ok : PPath → PPath → Bool) : ∀ (plan : List PlanEntry),
    applyRenames ok plan =
      (attemptList plan,
       (attemptList plan).countP (fun pr => ok pr.1 pr.2),
       (attemptList plan).countP (fun pr => !(ok pr.1 pr.2))) := by
  intro plan
  induction plan with
  | nil => rfl
  | cons e rest ih =>
    by_cases hst : e.status = "RENAME"
    · rcases ht : e.target with _ | t
      · rw [show applyRenames ok (e :: rest) = applyRenames ok rest from by
          simp [applyRenames, hst, ht]]
        rw [show attemptList (e :: rest) = attemptList rest from by
          simp [attemptList, List.filterMap_cons, hst, ht]]
        exact ih
      · have hatt : attemptList (e :: rest) = (e.orig, t) :: attemptList rest := by
          simp [attemptList, List.filterMap_cons, hst, ht]
        rw [show applyRenames ok (e :: rest)
            = ((e.orig, t) :: (applyRenames ok rest).1,
               (if ok e.orig t then (applyRenames ok rest).2.1 + 1
                else (applyRenames ok rest).2.1),
               (if ok e.orig t then (applyRenames ok rest).2.2
                else (applyRenames ok rest).2.2 + 1)) from by
          simp [applyRenames, hst, ht]]
        rw [ih, hatt]
        simp only [List.countP_cons]
        by_cases hok : ok e.orig t = true
        · simp [hok]
        · rw [Bool.not_eq_true] at hok
          simp [hok]
    · rw [show applyRenames ok (e :: rest) = applyRenames ok rest from by
        simp [applyRenames, hst]]
      rw [show attemptList (e :: rest) = attemptList rest from by
        simp [attemptList, List.filterMap_cons, hst]]
      exact ih

theorem attemptList_mem (plan : List PlanEntry) (pr : PPath × PPath) :
    pr ∈ attemptList plan ↔
      ∃ e ∈ plan, e.status = "RENAME" ∧ e.orig = pr.1 ∧ e.target = some pr.2 := by
  unfold attemptList
  rw [List.mem_filterMap]
  constructor
  · rintro ⟨e, he, hf⟩
    by_cases hst : e.status = "RENAME"
    · rw [if_pos hst] at hf
      rcases ht : e.target with _ | t
      · rw [ht] at hf
        simp at hf
      · rw [ht] at hf
        simp only [Option.map_some'] at hf
        obtain rfl : (e.orig, t) = pr := Option.some.inj hf
        exact ⟨e, he, hst, rfl, ht⟩
    · rw [if_neg hst] at hf
      exact Option.noConfusion hf
  · rintro ⟨e, he, hst, horig, htarget⟩
    refine ⟨e, he, ?_⟩
    rw [if_pos hst, htarget]
    simp only [Option.map_some']
    rw [horig]

/-! ### Failure cases of probe_video -/

theorem probe_video_none_of_missing (out : List Char)
    (h : widthOpt out = none ∨ heightOpt out = none ∨ durationOpt out = none) :
    probe_video (ProcResult.completed 0 out) = none := by
  simp only [probe_video]
  rw [if_neg (by simp)]
  rcases hw : widthOpt out with _ | w
  · rfl
  · rcases hh : heightOpt out with _ | hgt
    · rfl
    · rcases hs : durationOpt out with _ | sec
      · rfl
      · rw [hw, hh, hs] at h
        rcases h with h | h | h <;> exact Option.noConfusion h

theorem probe_video_none_of_w_nonpos (out : List Char) (w : ℤ)
    (hw : widthOpt out = some w) (hle : w ≤ 0) :
    probe_video (ProcResult.completed 0 out) = none := by
  simp only [probe_video]
  rw [if_neg (by simp), hw]
  rcases hh : heightOpt out with _ | hgt
  · rfl
  · rcases hs : durationOpt out with _ | sec
    · rfl
    · exact if_pos (Or.inl hle)

theorem probe_video_none_of_h_nonpos (out : List Char) (hgt : ℤ)
    (hh : heightOpt out = some hgt) (hle : hgt ≤ 0) :
    probe_video (ProcResult.completed 0 out) = none := by
  simp only [probe_video]
  rw [if_neg (by simp), hh]
  rcases hw : widthOpt out with _ | w
  · rfl
  · rcases hs : durationOpt out with _ | sec
    · rfl
    · exact if_pos (Or.inr hle)

theorem probe_video_completed_pos (out : List Char) (w hgt : ℤ) (sec : DecFrac)
    (hw : widthOpt out = some w) (hh : heightOpt out = some hgt)
    (hs : durationOpt out = some sec) (h0w : 0 < w) (h0h : 0 < hgt) :
    probe_video (ProcResult.completed 0 out) = some (durationMin sec, w, hgt) := by
  simp only [probe_video]
  rw [if_neg (by simp), hw, hh, hs]
  exact if_neg (by omega)

/-! ### The claims -/

/-- C1: the spec requires that tagging a stem which is not already tagged
and carries no duration or resolution markers appends the combined tag,
duration then resolution, so stem Movie with 45 minutes and 1920 by 1080
should become Movie_45min_1920x1080. The code appends only the resolution:
at that very input build_new_path returns stem Movie_1920x1080, which does
not end with the promised tag, although the stem Movie is clean in every
sense the claim demands (not already tagged, no Chinese duration marker,
no trailing resolution marker). This contradicts the documentation inside
the program itself, including the example filename printed by its own
command line help and the already-tagged pattern of line 16. -/
theorem c1_code_behavior :
    build_new_path ⟨[], "Movie".data, ".mp4".data⟩ 45 1920 1080
      = ⟨[], "Movie_1920x1080".data, ".mp4".data⟩ ∧
    ALREADY_TAGGED_RE ("Movie".data) = false ∧
    hasCh ("Movie".data) = false ∧
    splitTrailingRes ("Movie".data) = none ∧
    (("_45min_1920x1080".data).isSuffixOf ("Movie_1920x1080".data)) = false := by
  decide

/-- Case equations for probe_file. -/
theorem probe_file_tagged {probe : PPath → Option (ℕ × ℕ × ℕ)} {exOn : PPath → Bool}
    {p : PPath} (htag : ALREADY_TAGGED_RE p.stem = true) :
    probe_file probe exOn p = ⟨p, none, "SKIP (already tagged)"⟩ := by
  unfold probe_file
  rw [if_pos htag]

theorem probe_file_probe_failed {probe : PPath → Option (ℕ × ℕ × ℕ)} {exOn : PPath → Bool}
    {p : PPath} (htag : ALREADY_TAGGED_RE p.stem = false) (hpr : probe p = none) :
    probe_file probe exOn p = ⟨p, none, "SKIP (probe failed)"⟩ := by
  unfold probe_file
  simp [htag, hpr]

theorem probe_file_already_named {probe : PPath → Option (ℕ × ℕ × ℕ)} {exOn : PPath → Bool}
    {p : PPath} {d w h : ℕ} (htag : ALREADY_TAGGED_RE p.stem = false)
    (hpr : probe p = some (d, w, h)) (heq : build_new_path p d w h = p) :
    probe_file probe exOn p = ⟨p, none, "SKIP (already named)"⟩ := by
  unfold probe_file
  simp [htag, hpr, heq]

theorem probe_file_target_exists {probe : PPath → Option (ℕ × ℕ × ℕ)} {exOn : PPath → Bool}
    {p : PPath} {d w h : ℕ} (htag : ALREADY_TAGGED_RE p.stem = false)
    (hpr : probe p = some (d, w, h)) (hne : build_new_path p d w h ≠ p)
    (hex : exOn (build_new_path p d w h) = true) :
    probe_file probe exOn p
      = ⟨p, some (build_new_path p d w h), "SKIP (target exists)"⟩ := by
  unfold probe_file
  simp [htag, hpr, hne, hex]

theorem probe_file_rename {probe : PPath → Option (ℕ × ℕ × ℕ)} {exOn : PPath → Bool}
    {p : PPath} {d w h : ℕ} (htag : ALREADY_TAGGED_RE p.stem = false)
    (hpr : probe p = some (d, w, h)) (hne : build_new_path p d w h ≠ p)
    (hex : exOn (build_new_path p d w h) = false) :
    probe_file probe exOn p = ⟨p, some (build_new_path p d w h), "RENAME"⟩ := by
  unfold probe_file
  simp [htag, hpr, hne, hex]

/-- C2: a plan entry has status RENAME exactly when its target is present,
differs from the original path, and no file exists at the target at plan
computation time; moreover the entry records the probed path as its
original path. -/
theorem c2_rename_iff (probe : PPath → Option (ℕ × ℕ × ℕ)) (exOn : PPath → Bool)
    (p : PPath) :
    (probe_file probe exOn p).orig = p ∧
    ((probe_file probe exOn p).status = "RENAME" ↔
      ∃ t, (probe_file probe exOn p).target = some t ∧ t ≠ p ∧ exOn t = false) := by
  have hstr1 : ("SKIP (already tagged)" : String) ≠ "RENAME" := by decide
  have hstr2 : ("SKIP (probe failed)" : String) ≠ "RENAME" := by decide
  have hstr3 : ("SKIP (already named)" : String) ≠ "RENAME" := by decide
  have hstr4 : ("SKIP (target exists)" : String) ≠ "RENAME" := by decide
  rcases htag : ALREADY_TAGGED_RE p.stem with _ | _
  · rcases hpr : probe p with _ | ⟨⟨d, w, h⟩⟩
    · rw [probe_file_probe_failed htag hpr]
      exact ⟨rfl, ⟨fun hc => absurd hc hstr2, by rintro ⟨t, ht, _, _⟩; exact Option.noConfusion ht⟩⟩
    · by_cases heq : build_new_path p d w h = p
      · rw [probe_file_already_named htag hpr heq]
        exact ⟨rfl, ⟨fun hc => absurd hc hstr3,
          by rintro ⟨t, ht, _, _⟩; exact Option.noConfusion ht⟩⟩
      · rcases hex : exOn (build_new_path p d w h) with _ | _
        · rw [probe_file_rename htag hpr heq hex]
          refine ⟨rfl, ⟨fun _ => ⟨build_new_path p d w h, rfl, heq, hex⟩, fun _ => rfl⟩⟩
        · rw [probe_file_target_exists htag hpr heq hex]
          refine ⟨rfl, ⟨fun hc => absurd hc hstr4, ?_⟩⟩
          rintro ⟨t, ht, _, htex⟩
          obtain rfl : build_new_path p d w h = t := Option.some.inj ht
          rw [hex] at htex
          exact Bool.noConfusion htex
  · rw [probe_file_tagged htag]
    exact ⟨rfl, ⟨fun hc => absurd hc hstr1, by rintro ⟨t, ht, _, _⟩; exact Option.noConfusion ht⟩⟩

/-- C3 counterexample: the claim requires that a missing duration field
makes the probe return the absent result, but a completed probe whose
output has width and height lines and no duration line succeeds: the
duration key defaults to zero seconds and the reported result is one
minute with the parsed dimensions, not none. -/
theorem c3_counterexample :
    getValue (stdoutLines ("width=1920\nheight=1080".data)) ("duration".data) = none ∧
    probe_video (ProcResult.completed 0 ("width=1920\nheight=1080".data))
      = some (1, 1920, 1080) ∧
    probe_video (ProcResult.completed 0 ("width=1920\nheight=1080".data)) ≠ none := by
  decide

/-- C3 amended: a timeout, an os error, a non-zero exit status, a missing
width or height field, an unparseable width, height or duration value,
and a non-positive parsed dimension all make probe_video return none
rather than raise; a missing duration field however is not a failure, it
defaults to zero seconds. probe_video is a total function, so no
exception escapes in the model. -/
theorem c3_amended :
    (probe_video ProcResult.timedOut = none) ∧
    (probe_video ProcResult.osError = none) ∧
    (∀ (rc : ℤ) (out : List Char), rc ≠ 0 →
      probe_video (ProcResult.completed rc out) = none) ∧
    (∀ out : List Char, getValue (stdoutLines out) ("width".data) = none →
      probe_video (ProcResult.completed 0 out) = none) ∧
    (∀ out : List Char, getValue (stdoutLines out) ("height".data) = none →
      probe_video (ProcResult.completed 0 out) = none) ∧
    (∀ (out v : List Char), getValue (stdoutLines out) ("width".data) = some v →
      pyInt v = none → probe_video (ProcResult.completed 0 out) = none) ∧
    (∀ (out v : List Char), getValue (stdoutLines out) ("height".data) = some v →
      pyInt v = none → probe_video (ProcResult.completed 0 out) = none) ∧
    (∀ (out v : List Char), getValue (stdoutLines out) ("duration".data) = some v →
      pyFloat v = none → probe_video (ProcResult.completed 0 out) = none) ∧
    (∀ (out v : List Char) (w : ℤ), getValue (stdoutLines out) ("width".data) = some v →
      pyInt v = some w → w ≤ 0 → probe_video (ProcResult.completed 0 out) = none) ∧
    (∀ (out v : List Char) (hgt : ℤ), getValue (stdoutLines out) ("height".data) = some v →
      pyInt v = some hgt → hgt ≤ 0 → probe_video (ProcResult.completed 0 out) = none) := by
  refine ⟨rfl, rfl, ?_, ?_, ?_, ?_, ?_, ?_, ?_, ?_⟩
  · intro rc out hrc
    simp only [probe_video]
    rw [if_pos hrc]
  · intro out hw
    exact probe_video_none_of_w_nonpos out 0 (by simp [widthOpt, hw]) le_rfl
  · intro out hh
    exact probe_video_none_of_h_nonpos out 0 (by simp [heightOpt, hh]) le_rfl
  · intro out v hv hp
    exact probe_video_none_of_missing out (Or.inl (by simp [widthOpt, hv, hp]))
  · intro out v hv hp
    exact probe_video_none_of_missing out (Or.inr (Or.inl (by simp [heightOpt, hv, hp])))
  · intro out v hv hp
    exact probe_video_none_of_missing out (Or.inr (Or.inr (by simp [durationOpt, hv, hp])))
  · intro out v w hv hp hle
    exact probe_video_none_of_w_nonpos out w (by simp [widthOpt, hv, hp]) hle
  · intro out v hgt hv hp hle
    exact probe_video_none_of_h_nonpos out hgt (by simp [heightOpt, hv, hp]) hle

/-- C3 witness: concrete instances of the amended failure cases, a
non-zero exit status, a missing width field, an unparseable width value
and a negative width value. -/
theorem c3_witness :
    probe_video (ProcResult.completed 1 ("width=1920\nheight=1080\nduration=89.0".data))
      = none ∧
    probe_video (ProcResult.completed 0 ("height=1080\nduration=89.0".data)) = none ∧
    probe_video (ProcResult.completed 0 ("width=abc\nheight=1080\nduration=89.0".data))
      = none ∧
    probe_video (ProcResult.completed 0 ("width=-2\nheight=1080\nduration=89.0".data))
      = none :=
  ⟨c3_amended.2.2.1 1 _ (by decide),
   c3_amended.2.2.2.1 _ (by decide),
   c3_amended.2.2.2.2.2.1 _ ("abc".data) (by decide) (by decide),
   c3_amended.2.2.2.2.2.2.2.2.1 _ ("-2".data) (-2) (by decide) (by decide) (by decide)⟩

/-- C4 counterexample: the file clip.Mp4 has extension Mp4, equal to the
set member mp4 ignoring case, yet discovery collects nothing: the code
globs only the extension exactly as given and its full uppercase form, so
a mixed case extension is missed. -/
theorem c4_counterexample :
    (('.' :: ("mp4".data)).isSuffixOf
      ((nameOf ⟨[], "clip".data, ".Mp4".data⟩).map Char.toLower)) = true ∧
    collect_video_files [⟨[], "clip".data, ".Mp4".data⟩] (fun _ => 0) [("mp4".data)]
      = [] := by
  decide

/-- C4 amended: a file is discovered whenever its name ends with a dot
and a set extension exactly as written, or with the fully uppercased
form of a set extension; the file then appears in the collected list up
to the resolved-path identity used for deduplication. Other letter case
combinations of the extension are not matched. -/
theorem c4_amended (fs : List PPath) (resolve : PPath → ℕ) (exts : List (List Char))
    (p : PPath) (e : List Char) (hfs : p ∈ fs) (he : e ∈ exts)
    (hmatch : matchesExt e p = true ∨ matchesExt (upperL e) p = true) :
    ∃ q ∈ collect_video_files fs resolve exts, resolve q = resolve p :=
  collect_mem fs resolve exts p e hfs he hmatch

/-- C4 witness: the fully uppercased file clip.MP4 is collected when mp4
is in the extension set. -/
theorem c4_witness :
    ∃ q ∈ collect_video_files [⟨[], "clip".data, ".MP4".data⟩] (fun _ => 7) [("mp4".data)],
      (fun (_ : PPath) => 7) q = (fun (_ : PPath) => 7) (⟨[], "clip".data, ".MP4".data⟩ : PPath) :=
  c4_amended [⟨[], "clip".data, ".MP4".data⟩] (fun _ => 7) [("mp4".data)]
    ⟨[], "clip".data, ".MP4".data⟩ ("mp4".data) (by decide) (by decide) (by decide)

/-- C5: the tag builder is idempotent, applying it to its own output with
the same duration and resolution returns the same path, and therefore a
second run over a renamed file with the same probe results classifies it
as SKIP already tagged or SKIP already named and never as a rename. -/
theorem c5_idempotent (p : PPath) (d w h : ℕ) (probe : PPath → Option (ℕ × ℕ × ℕ))
    (exOn : PPath → Bool) :
    build_new_path (build_new_path p d w h) d w h = build_new_path p d w h ∧
    (probe (build_new_path p d w h) = some (d, w, h) →
      ((probe_file probe exOn (build_new_path p d w h)).status = "SKIP (already tagged)" ∨
       (probe_file probe exOn (build_new_path p d w h)).status = "SKIP (already named)") ∧
      (probe_file probe exOn (build_new_path p d w h)).status ≠ "RENAME") := by
  refine ⟨build_new_path_idem p d w h, ?_⟩
  intro hpr
  rcases htag : ALREADY_TAGGED_RE (build_new_path p d w h).stem with _ | _
  · rw [probe_file_already_named htag hpr (build_new_path_idem p d w h)]
    exact ⟨Or.inr rfl, fun hc => absurd hc (by decide : ("SKIP (already named)" : String) ≠ "RENAME")⟩
  · rw [probe_file_tagged htag]
    exact ⟨Or.inl rfl, fun hc => absurd hc (by decide : ("SKIP (already tagged)" : String) ≠ "RENAME")⟩

/-- C5 witness: a second pass over the renamed Movie file with unchanged
probe results produces a skip, not a rename. -/
theorem c5_witness :
    ((probe_file (fun _ => some (45, 1920, 1080)) (fun _ => false)
        (build_new_path ⟨[], "Movie".data, ".mp4".data⟩ 45 1920 1080)).status
      = "SKIP (already tagged)" ∨
     (probe_file (fun _ => some (45, 1920, 1080)) (fun _ => false)
        (build_new_path ⟨[], "Movie".data, ".mp4".data⟩ 45 1920 1080)).status
      = "SKIP (already named)") ∧
    (probe_file (fun _ => some (45, 1920, 1080)) (fun _ => false)
        (build_new_path ⟨[], "Movie".data, ".mp4".data⟩ 45 1920 1080)).status ≠ "RENAME" :=
  (c5_idempotent ⟨[], "Movie".data, ".mp4".data⟩ 45 1920 1080
    (fun _ => some (45, 1920, 1080)) (fun _ => false)).2 rfl

/-- C7: a file whose stem ends with an underscore, digits, min, an
underscore, digits, an x and digits is classified SKIP already tagged
with no target, and the probe oracle is never consulted: the plan entry
is the same for every probe function. -/
theorem c7_already_tagged (probe probe2 : PPath → Option (ℕ × ℕ × ℕ)) (exOn : PPath → Bool)
    (p : PPath) (pre a b c : List Char)
    (hstem : p.stem = pre ++ ('_' :: a) ++ ('m' :: 'i' :: 'n' :: '_' :: b) ++ ('x' :: c))
    (hane : a ≠ []) (hbne : b ≠ []) (hcne : c ≠ [])
    (hda : ∀ x ∈ a, isDig x = true) (hdb : ∀ x ∈ b, isDig x = true)
    (hdc : ∀ x ∈ c, isDig x = true) :
    probe_file probe exOn p = ⟨p, none, "SKIP (already tagged)"⟩ ∧
    probe_file probe exOn p = probe_file probe2 exOn p := by
  have htag : ALREADY_TAGGED_RE p.stem = true := by
    rw [hstem]
    exact already_tagged_of_decomp pre a b c hane hbne hcne hda hdb hdc
  rw [probe_file_tagged htag, probe_file_tagged htag]
  exact ⟨rfl, rfl⟩

/-- C7 witness: the tagged stem Movie_45min_1920x1080 is skipped without
probing, the entry being identical under two different probe oracles. -/
theorem c7_witness :
    probe_file (fun _ => none) (fun _ => false)
        ⟨[], "Movie_45min_1920x1080".data, ".mp4".data⟩
      = ⟨⟨[], "Movie_45min_1920x1080".data, ".mp4".data⟩, none, "SKIP (already tagged)"⟩ ∧
    probe_file (fun _ => none) (fun _ => false)
        ⟨[], "Movie_45min_1920x1080".data, ".mp4".data⟩
      = probe_file (fun _ => some (1, 2, 3)) (fun _ => false)
        ⟨[], "Movie_45min_1920x1080".data, ".mp4".data⟩ :=
  c7_already_tagged (fun _ => none) (fun _ => some (1, 2, 3)) (fun _ => false)
    ⟨[], "Movie_45min_1920x1080".data, ".mp4".data⟩
    ("Movie".data) ("45".data) ("1920".data) ("1080".data)
    (by decide) (by decide) (by decide) (by decide) (by decide) (by decide) (by decide)

/-- C6: a successfully probed duration of s seconds is reported as
max 1 of round of s over 60, with the language default round half to
even; in particular a successful probe with positive dimensions reports
exactly that number of minutes, 89 seconds give 1 minute, every positive
sub-minute duration gives 1 minute, and a zero or negative duration gives
the minimum of 1 minute. -/
theorem c6_duration :
    (∀ s : DecFrac, durationMin s = max 1 (pyRound (DecFrac.toRat s / 60))) ∧
    (∀ (out : List Char) (w hgt : ℤ) (sec : DecFrac),
      widthOpt out = some w → heightOpt out = some hgt → durationOpt out = some sec →
      0 < w → 0 < hgt →
      probe_video (ProcResult.completed 0 out)
        = some (max 1 (pyRound (DecFrac.toRat sec / 60)), w, hgt)) ∧
    (∀ s : DecFrac, DecFrac.toRat s = 89 → durationMin s = 1) ∧
    (∀ s : DecFrac, 0 < DecFrac.toRat s → DecFrac.toRat s < 60 → durationMin s = 1) ∧
    (∀ s : DecFrac, DecFrac.toRat s ≤ 0 → durationMin s = 1) := by
  have hkey : ∀ s : DecFrac, durationMin s = max 1 (pyRound (DecFrac.toRat s / 60)) := by
    intro s
    rw [durationMin_eq]
    rfl
  refine ⟨hkey, ?_, ?_, ?_, ?_⟩
  · intro out w hgt sec hw hh hs h0w h0h
    rw [probe_video_completed_pos out w hgt sec hw hh hs h0w h0h, hkey]
  · intro s hs
    rw [durationMin_eq, hs]
    exact durationMinQ_89
  · intro s h0 h60
    rw [durationMin_eq]
    exact durationMinQ_subminute h0 h60
  · intro s hle
    rw [durationMin_eq]
    exact durationMinQ_nonpos hle

/-- C6 witness: concrete durations, a probe of 89 seconds reports one
minute with its dimensions, a sub-minute duration of 30 seconds reports
one minute, and a negative duration of minus five seconds reports one
minute. -/
theorem c6_witness :
    probe_video (ProcResult.completed 0 ("width=1920\nheight=1080\nduration=89.0".data))
      = some (max 1 (pyRound (DecFrac.toRat ⟨890, 1⟩ / 60)), 1920, 1080) ∧
    durationMin ⟨30, 0⟩ = 1 ∧
    durationMin ⟨-5, 0⟩ = 1 :=
  ⟨c6_duration.2.1 _ 1920 1080 ⟨890, 1⟩ (by decide) (by decide) (by decide)
      (by decide) (by decide),
   c6_duration.2.2.2.1 ⟨30, 0⟩ (by norm_num [DecFrac.toRat]) (by norm_num [DecFrac.toRat]),
   c6_duration.2.2.2.2 ⟨-5, 0⟩ (by norm_num [DecFrac.toRat])⟩

/-- C8: in apply mode the attempted renames are exactly the plan entries
with status RENAME and a present target, in plan order; every attempt is
counted as a success or a failure according to the outcome of the rename
oracle, failures do not stop the remaining batch; in particular an entry
with any skip status, such as SKIP target exists, contributes no rename
attempt. -/
theorem c8_apply (ok : PPath → PPath → Bool) (plan : List PlanEntry) :
    applyRenames ok plan =
      (attemptList plan,
       (attemptList plan).countP (fun pr => ok pr.1 pr.2),
       (attemptList plan).countP (fun pr => !(ok pr.1 pr.2))) ∧
    (∀ pr : PPath × PPath, pr ∈ (applyRenames ok plan).1 ↔
      ∃ e ∈ plan, e.status = "RENAME" ∧ e.orig = pr.1 ∧ e.target = some pr.2) := by
  refine ⟨applyRenames_spec ok plan, ?_⟩
  intro pr
  rw [applyRenames_spec ok plan]
  exact attemptList_mem plan pr

/-- C9: the collected file list never contains two paths with the same
resolved form, it is sorted by the textual form of the paths, and the
displayed plan is sorted by the textual form of the original paths for
every completion order of the concurrent probes, modelled as an arbitrary
permutation of the probe results. -/
theorem c9_sorted_unique (fs : List PPath) (resolve : PPath → ℕ) (exts : List (List Char))
    (probe : PPath → Option (ℕ × ℕ × ℕ)) (exOn : PPath → Bool) :
    (collect_video_files fs resolve exts).Pairwise (fun a b => resolve a ≠ resolve b) ∧
    List.Sorted pathLe (collect_video_files fs resolve exts) ∧
    (∀ results : List PlanEntry,
      results.Perm ((collect_video_files fs resolve exts).map (probe_file probe exOn)) →
      List.Sorted entryLe (planSort results)) :=
  ⟨collect_pairwise fs resolve exts, collect_sorted fs resolve exts,
   fun results _ => planSort_sorted results⟩

/-- C9 witness: a concrete two-file tree in identity completion order,
the collected list is duplicate free and sorted and the plan is sorted. -/
theorem c9_witness :
    List.Sorted entryLe (planSort
      ((collect_video_files [⟨"d/".data, "b".data, ".mp4".data⟩,
          ⟨"d/".data, "a".data, ".mp4".data⟩] (fun p => p.stem.length) [("mp4".data)]).map
        (probe_file (fun _ => none) (fun _ => false)))) :=
  (c9_sorted_unique [⟨"d/".data, "b".data, ".mp4".data⟩, ⟨"d/".data, "a".data, ".mp4".data⟩]
    (fun p => p.stem.length) [("mp4".data)] (fun _ => none) (fun _ => false)).2.2 _
    (List.Perm.refl _)

/-- C10: the tag builder only changes the stem, the returned path keeps
the directory and the suffix of its input for every input path and every
duration, width and height. -/
theorem c10_frame (p : PPath) (d w h : ℕ) :
    (build_new_path p d w h).dir = p.dir ∧ (build_new_path p d w h).ext = p.ext :=
  ⟨rfl, rfl⟩
